import Mathlib

/-!
Verification of the Mandelbrot zoom renderer (src/mandelbrot.cpp).

The C++ program is embedded shallowly:
* `double` arithmetic is modelled by `ℝ` where transcendental functions
  (`sqrt`, `log2`, `pow`) are involved, and by exact `ℚ`/`ℕ` arithmetic for
  the histogram and CDF computations (which use integer counters and a
  single exact division).
* The escape-time loop of `computeEscapeValues` becomes a fuel recursion
  (`escCount`), the fuel being `maxIter - n`, which makes termination
  structural.
* The OpenMP parallel structure is modelled by an arbitrary partition of the
  pixel multiset among workers: each worker owns a private histogram of its
  own pixels, and `computeHistogram` merges them by index-wise summation,
  exactly as the source does.
* `cvtColor(..., COLOR_HSV2BGR)` is an external OpenCV routine; it is
  modelled from the spec as a standard hue-saturation-value to RGB
  conversion (`hsvToRgb`).
* The C++ cast `int(x)` on a `double` truncates toward zero; this is
  `cppTrunc`.
-/

namespace Mandelbrot

/-- Squared magnitude of a complex number represented as a pair of reals. -/
def magSq (z : ℝ × ℝ) : ℝ := z.1 * z.1 + z.2 * z.2

/-- One step `z ← z*z + c` of the escape iteration (complex square plus c),
from line 41 of the source. -/
def zIter (cr ci : ℝ) (z : ℝ × ℝ) : ℝ × ℝ :=
  (z.1 * z.1 - z.2 * z.2 + cr, 2 * z.1 * z.2 + ci)

/-- The `while (abs(z) <= 2.0 && n < maxIter)` loop (lines 38-43), as a fuel
recursion: the fuel is `maxIter - n`, and the result is the number of
executed iterations, i.e. the final value of `n` minus the initial one.
`std::abs` on `complex<double>` is the square root of the squared
magnitude. -/
noncomputable def escCount (cr ci : ℝ) : ℕ → ℝ × ℝ → ℕ
  | 0, _ => 0
  | fuel + 1, z =>
    if Real.sqrt (magSq z) ≤ 2 then escCount cr ci fuel (zIter cr ci z) + 1 else 0

/-- The escape value of one pixel: iterate from `z = (0,0)` with fuel
`maxIter`. -/
noncomputable def escapeValue (maxIter : ℕ) (cr ci : ℝ) : ℕ :=
  escCount cr ci maxIter (0, 0)

/-- Real part of the complex coordinate of pixel column `x` (line 32). -/
noncomputable def pixelRe (w : ℕ) (x_min x_max : ℝ) (x : ℕ) : ℝ :=
  x_min + (x : ℝ) / (w : ℝ) * (x_max - x_min)

/-- Imaginary part of the complex coordinate of pixel row `y` (line 33). -/
noncomputable def pixelIm (h : ℕ) (y_min y_max : ℝ) (y : ℕ) : ℝ :=
  y_min + (y : ℝ) / (h : ℝ) * (y_max - y_min)

/-- The `storeN` field produced by `computeEscapeValues`: row `y`, column
`x` holds the escape value of the pixel `(x, y)`. -/
noncomputable def computeEscapeValues (w h maxIter : ℕ)
    (x_min x_max y_min y_max : ℝ) : List (List ℕ) :=
  (List.range h).map fun y => (List.range w).map fun x =>
    escapeValue maxIter (pixelRe w x_min x_max x) (pixelIm h y_min y_max y)

/-- The stored escape value `storeN[y][x]` of a single pixel. -/
noncomputable def storeN (w h maxIter : ℕ) (x_min x_max y_min y_max : ℝ)
    (x y : ℕ) : ℕ :=
  ((computeEscapeValues w h maxIter x_min x_max y_min y_max).getD y []).getD x 0

/-- The orbit of the iteration: `orbitZ cr ci k` is `z` after `k` steps of
`z ← z*z + c` from `z = 0`. -/
noncomputable def orbitZ (cr ci : ℝ) (k : ℕ) : ℝ × ℝ :=
  (zIter cr ci)^[k] (0, 0)

/-- A worker's private histogram (`localHist`): bucket `i` of the
`maxIter + 1` buckets counts the worker's pixels whose escape value is
exactly `i` (line 46, `localHist[n]++`). -/
def histOfValues (maxIter : ℕ) (vals : List ℕ) : List ℕ :=
  (List.range (maxIter + 1)).map fun i => vals.count i

/-- `computeHistogram` (lines 55-67): merge the per-worker histograms by
index-wise summation into a histogram of length `maxIter + 1`. -/
def computeHistogram (histPerThread : List (List ℕ)) (maxIter : ℕ) : List ℕ :=
  (List.range (maxIter + 1)).map fun i =>
    (histPerThread.map fun ht => ht.getD i 0).sum

/-- The accumulator loop of `computeCDF` (lines 78-82): `accum` is the
running sum, each entry is `accum / totalPixels` after adding the current
bucket. -/
def cdfAux (totalPixels : ℕ) : ℕ → List ℕ → List ℚ
  | _, [] => []
  | accum, hd :: tl =>
    (((accum + hd : ℕ) : ℚ) / (totalPixels : ℚ)) :: cdfAux totalPixels (accum + hd) tl

/-- `computeCDF` (lines 72-84): cumulative distribution of the merged
histogram, normalized by `totalPixels`. -/
def computeCDF (hist : List ℕ) (totalPixels : ℕ) : List ℚ :=
  cdfAux totalPixels 0 hist

/-- C++ `int(x)` conversion from `double`: truncation toward zero. -/
noncomputable def cppTrunc (x : ℝ) : ℤ :=
  if 0 ≤ x then ⌊x⌋ else ⌈x⌉

/-- The fixed gamma of the colorizer (`double gamma = 0.5`, line 98). -/
def gammaVal : ℝ := 0.5

/-- The intensity channel of an escaped pixel (lines 113-115):
`v = cdf[n]`, `vGamma = pow(v, gamma)`, `V = int(255 * vGamma)`. -/
noncomputable def intensityV (v : ℚ) : ℤ :=
  cppTrunc ((255 : ℝ) * (v : ℝ) ^ gammaVal)

/-- Modelled from the spec: the source calls the external OpenCV routine
`cvtColor(hsv, rgb, COLOR_HSV2BGR)` (line 122), whose code is not part of
this repository; the spec describes it as converting `(H, S, V)` in
hue-saturation-value space to the pixel's RGB color. This is the standard
conversion with OpenCV 8-bit conventions: hue in `[0, 180)` with 30 units
per 60-degree sector, saturation and value in `[0, 255]`. -/
def hsvToRgb (H S V : ℕ) : ℕ × ℕ × ℕ :=
  let region := H / 30
  let rem := H % 30
  let p := V * (255 - S) / 255
  let q := V * (255 * 30 - S * rem) / (255 * 30)
  let t := V * (255 * 30 - S * (30 - rem)) / (255 * 30)
  match region with
  | 0 => (V, t, p)
  | 1 => (q, V, p)
  | 2 => (p, V, t)
  | 3 => (p, q, V)
  | 4 => (t, p, V)
  | _ => (V, p, q)

/-- The per-pixel body of `colorizeImage` (lines 105-124): interior points
(`n == maxIter`) are black; otherwise the pixel is the HSV-to-RGB
conversion of hue 110, saturation 255 and the gamma-corrected intensity. -/
noncomputable def colorizePixel (maxIter : ℕ) (cdf : List ℚ) (n : ℕ) : ℕ × ℕ × ℕ :=
  if n = maxIter then (0, 0, 0)
  else hsvToRgb 110 255 (intensityV (cdf.getD n 0)).toNat

/-- `colorizeImage` (lines 89-127): apply `colorizePixel` to every entry of
the escape field. -/
noncomputable def colorizeImage (field : List (List ℕ)) (cdf : List ℚ)
    (maxIter : ℕ) : List (List (ℕ × ℕ × ℕ)) :=
  field.map (List.map (colorizePixel maxIter cdf))

/-- The iteration-depth policy of `computeFrame` (line 158):
`maxIter = 64 + int(log2(zoom) * 64)`. -/
noncomputable def maxIterOf (zoom : ℝ) : ℤ :=
  64 + cppTrunc (Real.logb 2 zoom * 64)

/-- `computeFrame` (lines 142-182): derive the viewport and iteration depth
from the zoom, run the pipeline, and return the colored image together with
the final values of the by-reference `zoom` parameter (never assigned in
the body) and of the static frame counter (incremented once). -/
noncomputable def computeFrame (width height : ℕ)
    (centerX centerY xRangeStart yRangeStart zoom : ℝ) (frameCount : ℕ) :
    List (List (ℕ × ℕ × ℕ)) × ℝ × ℕ :=
  let scale := 1 / zoom
  let xRange := xRangeStart * scale
  let yRange := yRangeStart * scale
  let x_min := centerX - xRange / 2
  let x_max := centerX + xRange / 2
  let y_min := centerY - yRange / 2
  let y_max := centerY + yRange / 2
  let maxIter := (maxIterOf zoom).toNat
  let field := computeEscapeValues width height maxIter x_min x_max y_min y_max
  let hist := computeHistogram [histOfValues maxIter field.flatten] maxIter
  let cdf := computeCDF hist (width * height)
  let image := colorizeImage field cdf maxIter
  (image, zoom, frameCount + 1)

/-- `double secondsPerZoomDoubling = 1.25` (line 219). -/
noncomputable def secondsPerZoomDoubling : ℝ := 1.25

/-- `zoomScalePerSecond = pow(2.0, 1.0 / secondsPerZoomDoubling)`
(line 220). -/
noncomputable def zoomScalePerSecond : ℝ :=
  (2 : ℝ) ^ ((1 : ℝ) / secondsPerZoomDoubling)

/-- `scalePerFrame = pow(zoomScalePerSecond, 1.0 / fps)` (line 221). -/
noncomputable def scalePerFrame (fps : ℕ) : ℝ :=
  zoomScalePerSecond ^ ((1 : ℝ) / (fps : ℝ))

/-- The render loop of `main` (lines 229-241), as a fuel recursion.  State:
current `zoom` and `frame` counter.  Each iteration first multiplies the
zoom by `s`, then generates a frame at the new zoom (recorded in the
returned list), then increments the frame counter.  Returns the final zoom,
the final frame counter and the zooms of the emitted frames in order. -/
noncomputable def renderLoop (s zoomEnd : ℝ) : ℕ → ℝ → ℕ → ℝ × ℕ × List ℝ
  | 0, zoom, frame => (zoom, frame, [])
  | fuel + 1, zoom, frame =>
    if zoom < zoomEnd then
      let z := zoom * s
      let r := renderLoop s zoomEnd fuel z (frame + 1)
      (r.1, r.2.1, z :: r.2.2)
    else (zoom, frame, [])

/-- The mean-time-per-frame expression of the final report (line 266):
`elapsedSec / frame`, with no guard on `frame`. -/
noncomputable def meanTimePerFrame (elapsedSec : ℝ) (frame : ℕ) : ℝ :=
  elapsedSec / (frame : ℝ)

/-! ## Helper lemmas: the escape loop -/

/-- The loop executes at most `fuel` iterations. -/
lemma escCount_le (cr ci : ℝ) : ∀ (fuel : ℕ) (z : ℝ × ℝ),
    escCount cr ci fuel z ≤ fuel := by
  intro fuel
  induction fuel with
  | zero => intro z; simp [escCount]
  | succ f ih =>
    intro z
    rw [escCount]
    split
    · exact Nat.succ_le_succ (ih _)
    · exact Nat.zero_le _

/-- Every iterate strictly before the exit index has magnitude at most 2. -/
lemma escCount_bounded_before (cr ci : ℝ) : ∀ (fuel : ℕ) (z : ℝ × ℝ) (k : ℕ),
    k < escCount cr ci fuel z → Real.sqrt (magSq ((zIter cr ci)^[k] z)) ≤ 2 := by
  intro fuel
  induction fuel with
  | zero => intro z k hk; simp [escCount] at hk
  | succ f ih =>
    intro z k hk
    rw [escCount] at hk
    by_cases hz : Real.sqrt (magSq z) ≤ 2
    · rw [if_pos hz] at hk
      cases k with
      | zero => simpa using hz
      | succ j =>
        rw [Function.iterate_succ_apply]
        exact ih (zIter cr ci z) j (Nat.lt_of_succ_lt_succ hk)
    · rw [if_neg hz] at hk
      exact absurd hk (Nat.not_lt_zero k)

/-- If the loop exits before exhausting its fuel, the iterate at the exit
index has magnitude exceeding 2. -/
lemma escCount_escaped_at (cr ci : ℝ) : ∀ (fuel : ℕ) (z : ℝ × ℝ),
    escCount cr ci fuel z < fuel →
    2 < Real.sqrt (magSq ((zIter cr ci)^[escCount cr ci fuel z] z)) := by
  intro fuel
  induction fuel with
  | zero => intro z h; exact absurd h (Nat.not_lt_zero _)
  | succ f ih =>
    intro z h
    rw [escCount] at h ⊢
    by_cases hz : Real.sqrt (magSq z) ≤ 2
    · rw [if_pos hz] at h ⊢
      rw [Function.iterate_succ_apply]
      exact ih (zIter cr ci z) (Nat.lt_of_succ_lt_succ h)
    · rw [if_neg hz]
      simpa using lt_of_not_le hz

/-- The stored field entry at an in-range pixel is the escape value of that
pixel's complex coordinate. -/
lemma storeN_eq (w h maxIter : ℕ) (x_min x_max y_min y_max : ℝ) (x y : ℕ)
    (hx : x < w) (hy : y < h) :
    storeN w h maxIter x_min x_max y_min y_max x y =
      escapeValue maxIter (pixelRe w x_min x_max x) (pixelIm h y_min y_max y) := by
  have hrow : (computeEscapeValues w h maxIter x_min x_max y_min y_max).getD y [] =
      (List.range w).map
        (fun x => escapeValue maxIter (pixelRe w x_min x_max x) (pixelIm h y_min y_max y)) := by
    unfold computeEscapeValues
    rw [List.getD_eq_getElem _ _ (by simpa using hy), List.getElem_map,
      List.getElem_range]
  unfold storeN
  rw [hrow, List.getD_eq_getElem _ _ (by simpa using hx), List.getElem_map,
    List.getElem_range]

/-! ## Claim C1 -/

/-- C1: for every pixel `(x, y)` of a frame with viewport
`[x_min, x_max] × [y_min, y_max]`, width, height and bound `maxIter`, the
stored escape value `n` is the count produced by mapping the pixel to
`c = (x_min + x/width*(x_max-x_min), y_min + y/height*(y_max-y_min))`,
iterating `z ← z*z + c` from `z = 0` and stopping as soon as the magnitude
of `z` exceeds `2.0` or `n` reaches `maxIter` (every orbit point strictly
before step `n` has magnitude at most 2, and if `n < maxIter` the orbit
point at step `n` has magnitude above 2); consequently `0 ≤ n ≤ maxIter`,
and the iteration always terminates within `maxIter` steps. -/
theorem escape_field_pixel_spec (w h maxIter x y : ℕ)
    (x_min x_max y_min y_max : ℝ) (hx : x < w) (hy : y < h) :
    storeN w h maxIter x_min x_max y_min y_max x y =
      escapeValue maxIter (pixelRe w x_min x_max x) (pixelIm h y_min y_max y) ∧
    storeN w h maxIter x_min x_max y_min y_max x y ≤ maxIter ∧
    (∀ k, k < storeN w h maxIter x_min x_max y_min y_max x y →
      Real.sqrt (magSq (orbitZ (pixelRe w x_min x_max x)
        (pixelIm h y_min y_max y) k)) ≤ 2) ∧
    (storeN w h maxIter x_min x_max y_min y_max x y < maxIter →
      2 < Real.sqrt (magSq (orbitZ (pixelRe w x_min x_max x)
        (pixelIm h y_min y_max y)
        (storeN w h maxIter x_min x_max y_min y_max x y)))) := by
  rw [storeN_eq w h maxIter x_min x_max y_min y_max x y hx hy]
  refine ⟨rfl, escCount_le _ _ _ _, ?_, ?_⟩
  · intro k hk
    exact escCount_bounded_before _ _ _ _ k hk
  · intro hlt
    exact escCount_escaped_at _ _ _ _ hlt

/-- Instance of C1 at a concrete pixel. -/
theorem escape_field_pixel_spec_witness :
    storeN 1 1 0 (-2) 2 (-2) 2 0 0 ≤ 0 :=
  (escape_field_pixel_spec 1 1 0 0 0 (-2) 2 (-2) 2 (by decide) (by decide)).2.1

/-! ## Helper lemmas: histograms -/

/-- Bucket `i` of a worker's histogram counts its pixels with value `i`. -/
lemma histOfValues_getD (m : ℕ) (vals : List ℕ) (i : ℕ) (hi : i < m + 1) :
    (histOfValues m vals).getD i 0 = vals.count i := by
  unfold histOfValues
  rw [List.getD_eq_getElem _ _ (by simpa using hi), List.getElem_map,
    List.getElem_range]

/-- Merging the per-worker histograms of any partition of a value list
yields the histogram of the whole list. -/
lemma computeHistogram_map_eq (parts : List (List ℕ)) (m : ℕ) :
    computeHistogram (parts.map (histOfValues m)) m = histOfValues m parts.flatten := by
  unfold computeHistogram histOfValues
  apply List.map_congr_left
  intro i hi
  rw [List.mem_range] at hi
  rw [List.map_map, List.count_flatten]
  congr 1
  apply List.map_congr_left
  intro p _
  simp only [Function.comp_apply]
  exact histOfValues_getD m p i hi

lemma sum_map_add_distrib (f g : ℕ → ℕ) : ∀ l : List ℕ,
    (l.map fun i => f i + g i).sum = (l.map f).sum + (l.map g).sum := by
  intro l
  induction l with
  | nil => simp
  | cons hd tl ih => simp only [List.map_cons, List.sum_cons, ih]; omega

lemma sum_map_indicator_zero (n v : ℕ) (hv : ¬v < n) :
    ((List.range n).map fun i => if v = i then 1 else 0).sum = 0 := by
  apply List.sum_eq_zero
  intro x hx
  simp only [List.mem_map, List.mem_range] at hx
  obtain ⟨i, hi, rfl⟩ := hx
  rw [if_neg]
  omega

lemma sum_map_indicator : ∀ n v : ℕ, v < n →
    ((List.range n).map fun i => if v = i then 1 else 0).sum = 1 := by
  intro n
  induction n with
  | zero => omega
  | succ m ih =>
    intro v hv
    rw [List.range_succ, List.map_append, List.sum_append]
    by_cases hvm : v < m
    · rw [ih v hvm]
      have hne : ¬v = m := by omega
      simp [hne]
    · have hveq : v = m := by omega
      rw [sum_map_indicator_zero m v hvm]
      simp [hveq]

/-- The buckets of a histogram of values all bounded by `m` sum to the
number of values. -/
lemma sum_histOfValues (m : ℕ) : ∀ vals : List ℕ, (∀ v ∈ vals, v ≤ m) →
    (histOfValues m vals).sum = vals.length := by
  intro vals
  induction vals with
  | nil =>
    intro _
    apply List.sum_eq_zero
    simp [histOfValues]
  | cons v vs ih =>
    intro hb
    unfold histOfValues at *
    have hpt : ((List.range (m + 1)).map fun i => (v :: vs).count i) =
        (List.range (m + 1)).map fun i => vs.count i + if v = i then 1 else 0 := by
      apply List.map_congr_left
      intro i _
      rw [List.count_cons]
      simp [beq_iff_eq]
    rw [hpt, sum_map_add_distrib, ih fun u hu => hb u (List.mem_cons_of_mem v hu),
      sum_map_indicator (m + 1) v (by have := hb v (List.mem_cons_self v vs); omega)]
    simp

lemma sum_map_const_range (n c : ℕ) : ((List.range n).map fun _ => c).sum = n * c := by
  induction n with
  | zero => simp
  | succ m ih =>
    rw [List.range_succ, List.map_append, List.sum_append, ih]
    simp [Nat.succ_mul]

/-- Every value of the computed escape field is at most `maxIter`. -/
lemma computeEscapeValues_le (w h m : ℕ) (x_min x_max y_min y_max : ℝ) :
    ∀ v ∈ (computeEscapeValues w h m x_min x_max y_min y_max).flatten, v ≤ m := by
  intro v hv
  simp only [computeEscapeValues, List.mem_flatten, List.mem_map, List.mem_range] at hv
  obtain ⟨row, ⟨y, -, rfl⟩, hv⟩ := hv
  simp only [List.mem_map, List.mem_range] at hv
  obtain ⟨x, -, rfl⟩ := hv
  exact escCount_le _ _ _ _

/-- The escape field holds exactly `height * width` values. -/
lemma computeEscapeValues_flatten_length (w h m : ℕ) (x_min x_max y_min y_max : ℝ) :
    (computeEscapeValues w h m x_min x_max y_min y_max).flatten.length = h * w := by
  rw [List.length_flatten]
  unfold computeEscapeValues
  rw [List.map_map]
  have hconst : ((List.range h).map
      (List.length ∘ fun y => (List.range w).map fun x =>
        escapeValue m (pixelRe w x_min x_max x) (pixelIm h y_min y_max y))) =
      (List.range h).map fun _ => w := by
    apply List.map_congr_left
    intro y _
    simp
  rw [hconst]
  exact sum_map_const_range h w

/-! ## Claims C2 and C3 -/

/-- C2: for every frame, the merged histogram has length `maxIter + 1`, its
entry at index `i` equals the number of pixels whose escape value is
exactly `i`, and the sum of all entries equals exactly `width * height`;
this holds for any partition of the field's pixels among the workers. -/
theorem merged_histogram_spec (w h maxIter : ℕ) (x_min x_max y_min y_max : ℝ)
    (parts : List (List ℕ))
    (hperm : parts.flatten.Perm
      (computeEscapeValues w h maxIter x_min x_max y_min y_max).flatten) :
    (computeHistogram (parts.map (histOfValues maxIter)) maxIter).length = maxIter + 1 ∧
    (∀ i, i ≤ maxIter →
      (computeHistogram (parts.map (histOfValues maxIter)) maxIter).getD i 0 =
        (computeEscapeValues w h maxIter x_min x_max y_min y_max).flatten.count i) ∧
    (computeHistogram (parts.map (histOfValues maxIter)) maxIter).sum = w * h := by
  refine ⟨by simp [computeHistogram], ?_, ?_⟩
  · intro i hi
    rw [computeHistogram_map_eq, histOfValues_getD maxIter _ i (by omega)]
    exact hperm.count_eq i
  · have hvals : ∀ v ∈ parts.flatten, v ≤ maxIter := fun v hv =>
      computeEscapeValues_le w h maxIter x_min x_max y_min y_max v (hperm.subset hv)
    rw [computeHistogram_map_eq, sum_histOfValues maxIter _ hvals, hperm.length_eq,
      computeEscapeValues_flatten_length, mul_comm]

/-- Instance of C2 at a concrete one-pixel frame with one worker. -/
theorem merged_histogram_spec_witness :
    (computeHistogram ([[0]].map (histOfValues 0)) 0).sum = 1 * 1 := by
  refine (merged_histogram_spec 1 1 0 (-2) 2 (-2) 2 [[0]] ?_).2.2
  simp only [computeEscapeValues, escapeValue, escCount, List.range_succ]
  simp

/-- C3: histogram aggregation is pure, index-wise summation, independent of
the number of per-worker histograms and of how the pixels were partitioned
among them: any two partitions of the escape field's pixel counts merge to
the identical global histogram. -/
theorem histogram_merge_partition_independent (w h maxIter : ℕ)
    (x_min x_max y_min y_max : ℝ) (parts1 parts2 : List (List ℕ))
    (h1 : parts1.flatten.Perm
      (computeEscapeValues w h maxIter x_min x_max y_min y_max).flatten)
    (h2 : parts2.flatten.Perm
      (computeEscapeValues w h maxIter x_min x_max y_min y_max).flatten) :
    computeHistogram (parts1.map (histOfValues maxIter)) maxIter =
      computeHistogram (parts2.map (histOfValues maxIter)) maxIter := by
  rw [computeHistogram_map_eq, computeHistogram_map_eq]
  unfold histOfValues
  apply List.map_congr_left
  intro i _
  exact (h1.trans h2.symm).count_eq i

/-- Instance of C3: one worker versus two workers on a one-pixel frame. -/
theorem histogram_merge_partition_independent_witness :
    computeHistogram ([[0]].map (histOfValues 0)) 0 =
      computeHistogram ([[], [0]].map (histOfValues 0)) 0 := by
  refine histogram_merge_partition_independent 1 1 0 (-2) 2 (-2) 2 [[0]] [[], [0]] ?_ ?_ <;>
  · simp only [computeEscapeValues, escapeValue, escCount, List.range_succ]
    simp

/-! ## Helper lemmas: the CDF -/

lemma cdfAux_length (T : ℕ) : ∀ (l : List ℕ) (a : ℕ), (cdfAux T a l).length = l.length := by
  intro l
  induction l with
  | nil => intro a; simp [cdfAux]
  | cons hd tl ih => intro a; simp [cdfAux, ih]

/-- Closed form of the accumulator loop: entry `i` is the prefix sum up to
bucket `i` (plus the initial accumulator), divided by the total. -/
lemma cdfAux_getD (T : ℕ) : ∀ (l : List ℕ) (a i : ℕ), i < l.length →
    (cdfAux T a l).getD i 0 = ((a + (l.take (i + 1)).sum : ℕ) : ℚ) / (T : ℚ) := by
  intro l
  induction l with
  | nil => intro a i hi; simp at hi
  | cons hd tl ih =>
    intro a i hi
    cases i with
    | zero => simp [cdfAux]
    | succ j =>
      rw [cdfAux, List.getD_cons_succ, ih (a + hd) j (by simpa using hi)]
      have hsum : a + ((hd :: tl).take (j + 1 + 1)).sum = a + hd + (tl.take (j + 1)).sum := by
        rw [List.take_succ_cons, List.sum_cons]
        omega
      rw [hsum]

/-- Prefix sums of a list of naturals are monotone in the prefix length. -/
lemma sum_take_mono : ∀ (l : List ℕ) (i j : ℕ), i ≤ j → (l.take i).sum ≤ (l.take j).sum := by
  intro l
  induction l with
  | nil => intro i j _; simp
  | cons hd tl ih =>
    intro i j hij
    cases i with
    | zero => simp
    | succ a =>
      cases j with
      | zero => omega
      | succ b =>
        rw [List.take_succ_cons, List.take_succ_cons, List.sum_cons, List.sum_cons]
        exact Nat.add_le_add_left (ih a b (by omega)) hd

/-! ## Claim C4 -/

/-- C4: given a merged histogram and `totalPixels > 0`, the computed CDF
satisfies `cdf[i] = (sum of hist[k] for k ≤ i) / totalPixels` for every
index (the histogram's length is `maxIter + 1` and the CDF has the same
length); it is monotonically non-decreasing, and whenever the histogram
entries sum to `totalPixels`, the last entry `cdf[maxIter]` equals `1`
exactly (hence within any floating tolerance). -/
theorem computeCDF_spec (hist : List ℕ) (total : ℕ) (htotal : 0 < total) :
    (computeCDF hist total).length = hist.length ∧
    (∀ i, i < hist.length →
      (computeCDF hist total).getD i 0 = ((hist.take (i + 1)).sum : ℚ) / (total : ℚ)) ∧
    (∀ i j, i ≤ j → j < hist.length →
      (computeCDF hist total).getD i 0 ≤ (computeCDF hist total).getD j 0) ∧
    (hist.sum = total → 0 < hist.length →
      (computeCDF hist total).getD (hist.length - 1) 0 = 1) := by
  have hget : ∀ i, i < hist.length →
      (computeCDF hist total).getD i 0 = ((hist.take (i + 1)).sum : ℚ) / (total : ℚ) := by
    intro i hi
    unfold computeCDF
    rw [cdfAux_getD total hist 0 i hi]
    norm_num
  refine ⟨cdfAux_length total hist 0, hget, ?_, ?_⟩
  · intro i j hij hj
    rw [hget i (lt_of_le_of_lt hij hj), hget j hj]
    gcongr
    exact_mod_cast sum_take_mono hist (i + 1) (j + 1) (by omega)
  · intro hsum hpos
    rw [hget (hist.length - 1) (by omega)]
    have htake : hist.take (hist.length - 1 + 1) = hist := by
      rw [show hist.length - 1 + 1 = hist.length by omega]
      exact List.take_length hist
    rw [htake, hsum, div_self (by exact_mod_cast htotal.ne')]

/-- Instance of C4 at a concrete histogram. -/
theorem computeCDF_spec_witness :
    (computeCDF [1, 3] 4).getD 1 0 = ((([1, 3] : List ℕ).take (1 + 1)).sum : ℚ) / ((4 : ℕ) : ℚ) :=
  (computeCDF_spec [1, 3] 4 (by norm_num)).2.1 1 (by norm_num)

/-! ## Helper lemmas: the colorizer -/

/-- `pow(v, 0.5)` is the square root. -/
lemma intensityV_eq_sqrt (v : ℚ) :
    intensityV v = cppTrunc ((255 : ℝ) * Real.sqrt ((v : ℚ) : ℝ)) := by
  unfold intensityV gammaVal
  rw [show (0.5 : ℝ) = 1 / 2 by norm_num, ← Real.sqrt_eq_rpow]

/-! ## Claims C5 and C6 -/

/-- C5: for every pixel whose escape value `n` equals `maxIter`, the
colorized output is exactly the RGB triple `(0, 0, 0)`, independent of the
CDF contents (the CDF is universally quantified). -/
theorem colorize_interior_black (maxIter : ℕ) (cdf : List ℚ) (n : ℕ)
    (h : n = maxIter) : colorizePixel maxIter cdf n = (0, 0, 0) := by
  simp [colorizePixel, h]

/-- Instance of C5 at a concrete interior pixel. -/
theorem colorize_interior_black_witness : colorizePixel 5 [] 5 = (0, 0, 0) :=
  colorize_interior_black 5 [] 5 rfl

/-- C6 (amended): for every pixel whose escape value `n` is strictly less
than `maxIter`, the colorizer computes `v = cdf[n]`, applies gamma
correction `vGamma = v^0.5` with fixed gamma `0.5` (the square root), sets
the intensity channel to `V = int(255 * vGamma)`, i.e. `255 * vGamma`
truncated toward zero rather than rounded, uses the fixed blue hue `110`
and maximum saturation `255`, and converts `(H, S, V)` from
hue-saturation-value space to the pixel's RGB color. -/
theorem colorize_escaped_pixel_spec (maxIter : ℕ) (cdf : List ℚ) (n : ℕ)
    (h : n < maxIter) :
    colorizePixel maxIter cdf n =
      hsvToRgb 110 255 (cppTrunc ((255 : ℝ) * Real.sqrt ((cdf.getD n 0 : ℚ) : ℝ))).toNat := by
  unfold colorizePixel
  rw [if_neg (Nat.ne_of_lt h), intensityV_eq_sqrt]

/-- Instance of the amended C6 at a concrete escaped pixel. -/
theorem colorize_escaped_pixel_spec_witness :
    colorizePixel 1 [(1 : ℚ) / 2, 1] 0 =
      hsvToRgb 110 255
        (cppTrunc ((255 : ℝ) *
          Real.sqrt ((([(1 : ℚ) / 2, 1] : List ℚ).getD 0 0 : ℚ) : ℝ))).toNat :=
  colorize_escaped_pixel_spec 1 [(1 : ℚ) / 2, 1] 0 (by norm_num)

/-- C6 as stated is false: the source computes `int V = int(255 * vGamma)`
(line 115), which truncates, not `round(255 * vGamma)`.  At `cdf[n] = 1/4`
the truncated intensity is `127` while the rounded intensity would be
`128`, and the resulting RGB triples differ. -/
theorem colorize_round_counterexample :
    colorizePixel 1 [(1 : ℚ) / 4, 1] 0 ≠
      hsvToRgb 110 255 (round ((255 : ℝ) * (((1 : ℚ) / 4 : ℚ) : ℝ) ^ gammaVal)).toNat := by
  have hsqrt : Real.sqrt ((((1 : ℚ) / 4 : ℚ)) : ℝ) = 1 / 2 := by
    rw [show ((((1 : ℚ) / 4 : ℚ)) : ℝ) = (1 / 2 : ℝ) ^ 2 by push_cast; norm_num]
    exact Real.sqrt_sq (by norm_num)
  have hV : intensityV ((1 : ℚ) / 4) = 127 := by
    rw [intensityV_eq_sqrt, hsqrt]
    unfold cppTrunc
    rw [if_pos (by norm_num)]
    apply Int.floor_eq_iff.mpr
    constructor <;> norm_num
  have hround : round ((255 : ℝ) * (((1 : ℚ) / 4 : ℚ) : ℝ) ^ gammaVal) = 128 := by
    rw [gammaVal, show (0.5 : ℝ) = 1 / 2 by norm_num, ← Real.sqrt_eq_rpow, hsqrt, round_eq,
      show (255 : ℝ) * (1 / 2) + 1 / 2 = ((128 : ℤ) : ℝ) by norm_num]
    exact Int.floor_intCast 128
  have hL : colorizePixel 1 [(1 : ℚ) / 4, 1] 0 = hsvToRgb 110 255 127 := by
    unfold colorizePixel
    rw [if_neg (by norm_num : ¬(0 : ℕ) = 1), List.getD_cons_zero, hV]
    rfl
  rw [hL, hround]
  decide

/-! ## Claim C7 -/

/-- C++ truncation toward zero agrees with the floor on non-negative
values. -/
lemma cppTrunc_of_nonneg {x : ℝ} (hx : 0 ≤ x) : cppTrunc x = ⌊x⌋ := by
  unfold cppTrunc
  exact if_pos hx

/-- C7: the iteration depth is derived from the zoom state as
`maxIter = 64 + floor(log2(zoom) * 64)` (for the zooms the program uses,
which are all at least 1, the C++ `int` truncation coincides with the
floor); in particular `maxIter` equals `64` at `zoom = 1` and `128` at
`zoom = 2`, and `maxIter` is non-decreasing as the zoom increases. -/
theorem maxIter_policy_spec :
    (∀ zoom : ℝ, 1 ≤ zoom → maxIterOf zoom = 64 + ⌊Real.logb 2 zoom * 64⌋) ∧
    maxIterOf 1 = 64 ∧
    maxIterOf 2 = 128 ∧
    (∀ zoom zoom' : ℝ, 1 ≤ zoom → zoom ≤ zoom' → maxIterOf zoom ≤ maxIterOf zoom') := by
  have hfloor : ∀ zoom : ℝ, 1 ≤ zoom → maxIterOf zoom = 64 + ⌊Real.logb 2 zoom * 64⌋ := by
    intro z hz
    unfold maxIterOf
    rw [cppTrunc_of_nonneg (mul_nonneg (Real.logb_nonneg (by norm_num) hz) (by norm_num))]
  refine ⟨hfloor, ?_, ?_, ?_⟩
  · rw [hfloor 1 le_rfl, Real.logb_one, zero_mul, Int.floor_zero]
    norm_num
  · rw [hfloor 2 (by norm_num), Real.logb_self_eq_one (by norm_num), one_mul,
      show ((64 : ℝ)) = ((64 : ℤ) : ℝ) by norm_num, Int.floor_intCast]
    norm_num
  · intro z z' hz hzz
    rw [hfloor z hz, hfloor z' (le_trans hz hzz)]
    have hlog : Real.logb 2 z ≤ Real.logb 2 z' :=
      Real.logb_le_logb_of_le (by norm_num) (by linarith) hzz
    exact add_le_add_left
      (Int.floor_le_floor (mul_le_mul_of_nonneg_right hlog (by norm_num))) 64

/-- Instance of C7: the depth at zoom 1 is at most the depth at zoom 2. -/
theorem maxIter_policy_spec_witness : maxIterOf 1 ≤ maxIterOf 2 :=
  maxIter_policy_spec.2.2.2 1 2 le_rfl (by norm_num)

/-! ## Helper lemmas: the render loop -/

lemma one_lt_zoomScalePerSecond : 1 < zoomScalePerSecond := by
  unfold zoomScalePerSecond secondsPerZoomDoubling
  rw [Real.one_lt_rpow_iff_of_pos (by norm_num)]
  left
  constructor <;> norm_num

lemma one_lt_scalePerFrame (fps : ℕ) (hfps : 1 ≤ fps) : 1 < scalePerFrame fps := by
  unfold scalePerFrame
  rw [Real.one_lt_rpow_iff_of_pos (lt_trans one_pos one_lt_zoomScalePerSecond)]
  left
  refine ⟨one_lt_zoomScalePerSecond, ?_⟩
  have : (0 : ℝ) < (fps : ℝ) := by exact_mod_cast Nat.lt_of_lt_of_le Nat.zero_lt_one hfps
  positivity

lemma range_map_pow_cons (s : ℝ) (j N : ℕ) (hj : j < N) :
    s ^ (j + 1) :: ((List.range (N - (j + 1))).map fun k => s ^ (j + 1 + k + 1)) =
      (List.range (N - j)).map fun k => s ^ (j + k + 1) := by
  have hNj : N - j = (N - (j + 1)) + 1 := by omega
  rw [hNj, List.range_succ_eq_map, List.map_cons, List.map_map]
  congr 1
  apply List.map_congr_left
  intro k _
  simp only [Function.comp_apply]
  congr 1
  omega

/-- Invariant of the render loop: starting at zoom `s^j` after `j` frames,
with enough fuel, the loop runs until the first power of `s` at least
`zoomEnd`, emitting one frame per multiplication. -/
lemma renderLoop_inv (s zE : ℝ) (N : ℕ) (hN : zE ≤ s ^ N)
    (hmin : ∀ m, m < N → s ^ m < zE) :
    ∀ (fuel j : ℕ), j ≤ N → N - j ≤ fuel →
      renderLoop s zE fuel (s ^ j) j =
        (s ^ N, N, (List.range (N - j)).map fun k => s ^ (j + k + 1)) := by
  intro fuel
  induction fuel with
  | zero =>
    intro j hj hfuel
    have hjN : j = N := by omega
    subst hjN
    rw [renderLoop]
    simp
  | succ f ih =>
    intro j hj hfuel
    by_cases hjN : j = N
    · subst hjN
      rw [renderLoop, if_neg (not_lt.mpr hN)]
      simp
    · have hjlt : j < N := by omega
      rw [renderLoop, if_pos (hmin j hjlt), ← pow_succ]
      show ((renderLoop s zE f (s ^ (j + 1)) (j + 1)).1,
          (renderLoop s zE f (s ^ (j + 1)) (j + 1)).2.1,
          s ^ (j + 1) :: (renderLoop s zE f (s ^ (j + 1)) (j + 1)).2.2) = _
      rw [ih (j + 1) (by omega) (by omega)]
      exact congrArg (fun l => ((s : ℝ) ^ N, N, l)) (range_map_pow_cons s j N hjlt)

/-! ## Claim C8 -/

/-- C8: the animation loop starts from zoom `1.0` and, on every iteration,
multiplies the zoom by the constant
`scalePerFrame = (2^(1/secondsPerZoomDoubling))^(1/fps)` (a constant above
1 for any positive fps) before generating the frame, so the `k`-th emitted
frame has zoom `scalePerFrame^(k+1)`; the loop terminates with the first
zoom value that is at least `zoomEnd`, and the final emitted frame's zoom
is that first value at least `zoomEnd` — it overshoots rather than
stopping at or below the target. -/
theorem zoom_loop_spec :
    (∀ fps : ℕ, 1 ≤ fps → 1 < scalePerFrame fps) ∧
    (∀ s zoomEnd : ℝ, 1 < s → ∃ N : ℕ,
      zoomEnd ≤ s ^ N ∧ (∀ m, m < N → s ^ m < zoomEnd) ∧
      ∀ fuel : ℕ, N ≤ fuel →
        renderLoop s zoomEnd fuel 1 0 =
          (s ^ N, N, (List.range N).map fun k => s ^ (k + 1)) ∧
        (0 < N →
          ((List.range N).map fun k => s ^ (k + 1)).getLast? = some (s ^ N))) := by
  refine ⟨fun fps h => one_lt_scalePerFrame fps h, ?_⟩
  intro s zE hs
  have hex : ∃ n : ℕ, zE ≤ s ^ n := by
    obtain ⟨n, hn⟩ := pow_unbounded_of_one_lt zE hs
    exact ⟨n, le_of_lt hn⟩
  refine ⟨Nat.find hex, Nat.find_spec hex, ?_, ?_⟩
  · intro m hm
    exact lt_of_not_le (Nat.find_min hex hm)
  · intro fuel hfuel
    have hrun := renderLoop_inv s zE (Nat.find hex) (Nat.find_spec hex)
      (fun m hm => lt_of_not_le (Nat.find_min hex hm)) fuel 0 (Nat.zero_le _) (by omega)
    rw [pow_zero] at hrun
    simp only [Nat.sub_zero, Nat.zero_add] at hrun
    refine ⟨hrun, ?_⟩
    intro hN
    obtain ⟨M, hM⟩ : ∃ M, Nat.find hex = M + 1 := ⟨Nat.find hex - 1, by omega⟩
    rw [hM, List.range_succ, List.map_append]
    simp [List.getLast?_concat]

/-- Instance of C8: the concrete per-frame scale at 30 fps exceeds 1. -/
theorem zoom_loop_spec_witness : 1 < scalePerFrame 30 :=
  zoom_loop_spec.1 30 (by norm_num)

/-! ## Claims C9 and C10 -/

/-- C9: `computeFrame` receives the zoom state by mutable reference but
never writes to it: the value of `zoom` after `computeFrame` returns (the
middle component of the modelled result) equals its value on entry, for
every input, so the zoom progression is modified only by the driver loop
in `main`. -/
theorem computeFrame_preserves_zoom (width height : ℕ)
    (centerX centerY xRangeStart yRangeStart zoom : ℝ) (frameCount : ℕ) :
    (computeFrame width height centerX centerY xRangeStart yRangeStart
      zoom frameCount).2.1 = zoom := rfl

/-- C10: if the configured `zoomEnd` is at most `1.0` (the initial zoom),
the render loop body never executes, so zero frames are generated and the
frame counter stays `0`; the final report then computes the mean time per
frame as `elapsedSec` divided by that zero frame count — a division whose
divisor is `0`, with no guard in the code. -/
theorem zero_frame_division_unguarded (s zoomEnd : ℝ) (fuel : ℕ)
    (h : zoomEnd ≤ 1) :
    (renderLoop s zoomEnd fuel 1 0).2.1 = 0 ∧
    (∀ elapsedSec : ℝ,
      meanTimePerFrame elapsedSec (renderLoop s zoomEnd fuel 1 0).2.1 =
        elapsedSec / ((0 : ℕ) : ℝ)) := by
  have hloop : renderLoop s zoomEnd fuel 1 0 = (1, 0, []) := by
    cases fuel with
    | zero => rw [renderLoop]
    | succ f => rw [renderLoop, if_neg (not_lt.mpr h)]
  rw [hloop]
  exact ⟨rfl, fun e => rfl⟩

/-- Instance of C10 at `zoomEnd = 1`: the loop generates zero frames. -/
theorem zero_frame_division_unguarded_witness :
    (renderLoop 2 1 3 1 0).2.1 = 0 :=
  (zero_frame_division_unguarded 2 1 3 (by norm_num)).1

end Mandelbrot
